import Mathlib

/-!
Shallow embedding of the batched TF-IDF similarity engine of
`Web App/precompute_data.py` (CineMatch movie recommendation system).

The engine computes, for every movie, the top-K most similar movies under
cosine similarity of TF-IDF vectors.  The Python source relies on numpy
and scikit-learn; the embedding below models those primitives explicitly:

* `np.argsort` (ascending) is modelled as a canonical stable sort by
  score with ties kept in ascending position order.  numpy's default
  quicksort is an introsort that is unstable in general but degenerates
  to insertion sort (stable) on the small arrays used by the concrete
  counterexamples below, so the model is exact there.  No tie-order
  conclusion is drawn from this canonical choice: every general theorem
  proved about the selector is invariant under which valid permutation
  an unstable sort or partial selection would return, and the one
  tie-order statement made is a refutation witnessed on a small array.
* `np.argpartition(scores, -(K+1))` followed by the slice `[-(K+1):]` is
  modelled by a full stable ascending sort followed by `drop (N-(K+1))`:
  a full sort is a valid refinement of a partial selection.  Crucially,
  numpy raises `ValueError: kth out of bounds` when `K+1 > N`; the model
  returns `none` in that case.
* Python's `round(x, 4)` is round-half-to-even of `x * 10^4`.

Scores are modelled over `ℚ` (exact arithmetic); the real-valued TF-IDF
vectorizer layer (logarithms and square roots) is modelled over `ℝ`.
-/

namespace CineMatch

/-- Key order used to model a stable ascending argsort of a score row:
compare by score, breaking ties by ascending position.  A stable sort by
score of a list of (position, score) pairs with distinct positions is
exactly a sort by this lexicographic order. -/
def scoreLe (a b : ℕ × ℚ) : Prop := a.2 < b.2 ∨ (a.2 = b.2 ∧ a.1 ≤ b.1)

instance : DecidableRel scoreLe := fun a b =>
  if h1 : a.2 < b.2 then isTrue (Or.inl h1)
  else if h2 : a.2 = b.2 ∧ a.1 ≤ b.1 then isTrue (Or.inr h2)
  else isFalse (by rintro (h | h); exact h1 h; exact h2 h)

instance : IsTotal (ℕ × ℚ) scoreLe :=
  ⟨by
    intro a b
    rcases lt_trichotomy a.2 b.2 with h | h | h
    · exact Or.inl (Or.inl h)
    · rcases le_total a.1 b.1 with h' | h'
      · exact Or.inl (Or.inr ⟨h, h'⟩)
      · exact Or.inr (Or.inr ⟨h.symm, h'⟩)
    · exact Or.inr (Or.inl h)⟩

instance : IsTrans (ℕ × ℚ) scoreLe :=
  ⟨by
    rintro a b c (hab | ⟨hab, hab'⟩) (hbc | ⟨hbc, hbc'⟩)
    · exact Or.inl (hab.trans hbc)
    · exact Or.inl (hbc ▸ hab)
    · exact Or.inl (hab ▸ hbc)
    · exact Or.inr ⟨hab.trans hbc, hab'.trans hbc'⟩⟩

/-- Round-half-to-even on rationals, the semantics of Python's built-in
`round` applied to the scaled score. -/
def roundHalfEven (q : ℚ) : ℤ :=
  if q - ⌊q⌋ < 1 / 2 then ⌊q⌋
  else if (1 : ℚ) / 2 < q - ⌊q⌋ then ⌊q⌋ + 1
  else if ⌊q⌋ % 2 = 0 then ⌊q⌋ else ⌊q⌋ + 1

/-- Model of Python's `round(float(x), 4)` from the source line
`top_similar = [[int(idx), round(float(scores[idx]), 4)] for idx in top_indices]`. -/
def round4 (q : ℚ) : ℚ := (roundHalfEven (q * 10000) : ℚ) / 10000

/-- Model of `np.argsort` (ascending): sort the (position, value) pairs
of the row and return the positions.  The stable tie order is a
canonical modelling choice — numpy's default introsort guarantees no
particular order among equal values — so no theorem below relies on it
except where a small concrete array makes it exact (numpy's sorts
reduce to stable insertion sort below the introsort threshold). -/
def argsortAsc (xs : List ℚ) : List ℕ :=
  (List.insertionSort scoreLe xs.enum).map Prod.fst

/-- Top-K selector, the body of the per-row loop of `precompute_data.py`
(lines 144-153):

    scores = batch_sim[local_i]
    top_indices = np.argpartition(scores, -TOP_N_SIMILAR - 1)[-(TOP_N_SIMILAR + 1):]
    top_indices = top_indices[top_indices != global_i]  # remove self
    top_indices = top_indices[np.argsort(scores[top_indices])[::-1]][:TOP_N_SIMILAR]
    top_similar = [[int(idx), round(float(scores[idx]), 4)] for idx in top_indices]

`np.argpartition(scores, -(K+1))` raises `ValueError: kth out of bounds`
when `K + 1 > len(scores)`; this is modelled by returning `none`. -/
def topKSelect (scores : List ℚ) (i K : ℕ) : Option (List (ℕ × ℚ)) :=
  let N := scores.length
  if K + 1 > N then none
  else
    let part := (List.insertionSort scoreLe scores.enum).drop (N - (K + 1))
    let cands := part.filter (fun p => p.1 ≠ i)
    let perm := argsortAsc (cands.map Prod.snd)
    let ordered := (perm.reverse.map (fun j => cands.getD j (0, 0))).take K
    some (ordered.map (fun p => (p.1, round4 p.2)))

/-- Batched similarity loop of `precompute_data.py` (lines 139-155),
abstracted over the similarity rows: `sim i` is the dense similarity row
of entry `i` against all entries (the row `batch_sim[local_i]` of
`cosine_similarity(tfidf_matrix[batch_start:batch_end], tfidf_matrix)`).
Since each row of the batched product depends only on its own global
index, a batch of rows is the list of its rows' selector outputs.
Python's `range(0, N, 0)` raises `ValueError`, modelled by `none`. -/
def batchLoop (sim : ℕ → List ℚ) (N K B start : ℕ) :
    Option (List (List (ℕ × ℚ))) :=
  if hN : N ≤ start then some []
  else if hB : B = 0 then none
  else do
    let batchEnd := min (start + B) N
    let batchRes ← (List.range (batchEnd - start)).mapM
      (fun li => topKSelect (sim (start + li)) (start + li) K)
    let rest ← batchLoop sim N K B batchEnd
    pure (batchRes ++ rest)
  termination_by N - start
  decreasing_by
    simp only [not_le] at hN
    have hB' : 0 < B := Nat.pos_of_ne_zero hB
    omega

/-- Full batched run starting from row 0, as in
`for batch_start in range(0, num_movies, BATCH_SIZE)`. -/
def batchedSimilarity (sim : ℕ → List ℚ) (N K B : ℕ) :
    Option (List (List (ℕ × ℚ))) :=
  batchLoop sim N K B 0

/-- Candidate list in canonical ascending form: the K+1 top-scoring
(index, score) pairs sorted ascending, with the self index removed. -/
def selRaw (scores : List ℚ) (i K : ℕ) : List (ℕ × ℚ) :=
  ((List.insertionSort scoreLe scores.enum).drop (scores.length - (K + 1))).filter
    (fun p => p.1 ≠ i)

lemma scoreLe_snd_le {a b : ℕ × ℚ} (h : scoreLe a b) : a.2 ≤ b.2 := by
  rcases h with h | ⟨h, _⟩
  · exact le_of_lt h
  · exact le_of_eq h

lemma sorted_enumFrom_scoreLe :
    ∀ (vs : List ℚ) (n : ℕ), List.Sorted (· ≤ ·) vs → List.Sorted scoreLe (vs.enumFrom n)
  | [], _, _ => List.sorted_nil
  | v :: t, n, hs => by
    simp only [List.enumFrom]
    rcases List.sorted_cons.mp hs with ⟨hv, ht⟩
    refine List.sorted_cons.mpr ⟨?_, sorted_enumFrom_scoreLe t (n + 1) ht⟩
    rintro ⟨m, w⟩ hb
    have hm : n + 1 ≤ m := List.le_fst_of_mem_enumFrom hb
    have hw : w ∈ t := (List.enumFrom_map_snd (n + 1) t) ▸ List.mem_map_of_mem Prod.snd hb
    rcases lt_or_eq_of_le (hv w hw) with h | h
    · exact Or.inl h
    · exact Or.inr ⟨h, by omega⟩

lemma argsortAsc_of_sorted (vs : List ℚ) (hs : List.Sorted (· ≤ ·) vs) :
    argsortAsc vs = List.range vs.length := by
  unfold argsortAsc
  have henum : vs.enum = vs.enumFrom 0 := rfl
  rw [henum, (sorted_enumFrom_scoreLe vs 0 hs).insertionSort_eq, ← henum]
  exact List.enum_map_fst vs

lemma sorted_selRaw (scores : List ℚ) (i K : ℕ) :
    List.Sorted scoreLe (selRaw scores i K) :=
  (((List.sorted_insertionSort scoreLe scores.enum).sublist
    (List.drop_sublist _ _)).sublist (List.filter_sublist _))

lemma map_snd_sorted_selRaw (scores : List ℚ) (i K : ℕ) :
    List.Sorted (· ≤ ·) ((selRaw scores i K).map Prod.snd) :=
  (sorted_selRaw scores i K).map Prod.snd (fun _ _ h => scoreLe_snd_le h)

lemma map_getD_range (l : List (ℕ × ℚ)) :
    (List.range l.length).map (fun j => l.getD j (0, 0)) = l := by
  apply List.ext_getElem
  · simp
  · intro k h1 h2
    simp only [List.getElem_map, List.getElem_range]
    rw [List.getD_eq_getElem?_getD, List.getElem?_eq_getElem h2]
    rfl

lemma map_getD_reverse_range (l : List (ℕ × ℚ)) :
    (List.range l.length).reverse.map (fun j => l.getD j (0, 0)) = l.reverse := by
  rw [List.map_reverse, map_getD_range]

/-- Shape of a successful selector run: when `K + 1 ≤ N`, the output is
the candidate list reversed (descending), truncated to `K`, with rounded
scores.  The second argsort in the source is the identity permutation on
the already-ascending candidate slice, so the reversal gives exactly the
reversed slice. -/
lemma topKSelect_eq_selRaw (scores : List ℚ) (i K : ℕ) (h : K + 1 ≤ scores.length) :
    topKSelect scores i K =
      some (((selRaw scores i K).reverse.take K).map (fun p => (p.1, round4 p.2))) := by
  unfold topKSelect
  rw [if_neg (by omega)]
  have hperm : argsortAsc ((selRaw scores i K).map Prod.snd)
      = List.range (selRaw scores i K).length := by
    rw [argsortAsc_of_sorted _ (map_snd_sorted_selRaw scores i K), List.length_map]
  show some _ = some _
  congr 1
  rw [show ((List.insertionSort scoreLe scores.enum).drop (scores.length - (K + 1))).filter
        (fun p => p.1 ≠ i) = selRaw scores i K from rfl]
  rw [hperm, map_getD_reverse_range, List.map_take]

lemma nodup_fst_drop_sorted (scores : List ℚ) (n : ℕ) :
    (((List.insertionSort scoreLe scores.enum).drop n).map Prod.fst).Nodup := by
  have hperm : List.Perm ((List.insertionSort scoreLe scores.enum).map Prod.fst)
      (scores.enum.map Prod.fst) :=
    (List.perm_insertionSort scoreLe scores.enum).map Prod.fst
  have hn : ((List.insertionSort scoreLe scores.enum).map Prod.fst).Nodup := by
    rw [hperm.nodup_iff, List.enum_map_fst]
    exact List.nodup_range _
  exact hn.sublist ((List.drop_sublist _ _).map Prod.fst)

lemma length_filter_ne_ge (l : List (ℕ × ℚ)) (i : ℕ) (h : (l.map Prod.fst).Nodup) :
    l.length - 1 ≤ (l.filter (fun p => p.1 ≠ i)).length := by
  induction l with
  | nil => simp
  | cons a t ih =>
    simp only [List.map_cons, List.nodup_cons] at h
    rcases h with ⟨ha, ht⟩
    rcases Decidable.em (a.1 = i) with hai | hai
    · have hsame : t.filter (fun p => p.1 ≠ i) = t := by
        apply List.filter_eq_self.mpr
        intro p hp
        have hpt : p.1 ∈ t.map Prod.fst := List.mem_map_of_mem Prod.fst hp
        simp only [ne_eq, decide_eq_true_eq]
        intro hpi
        rw [hpi, ← hai] at hpt
        exact ha hpt
      have hstep : (a :: t).filter (fun p => p.1 ≠ i) = t := by
        rw [List.filter_cons_of_neg, hsame]
        simp [hai]
      rw [hstep]
      simp
    · have hstep : (a :: t).filter (fun p => p.1 ≠ i)
          = a :: t.filter (fun p => p.1 ≠ i) := by
        rw [List.filter_cons_of_pos]
        simp [hai]
      rw [hstep]
      have := ih ht
      simp only [List.length_cons]
      omega

lemma length_selRaw (scores : List ℚ) (i K : ℕ) (h : K + 1 ≤ scores.length) :
    K ≤ (selRaw scores i K).length ∧ (selRaw scores i K).length ≤ K + 1 := by
  have hlen : ((List.insertionSort scoreLe scores.enum).drop
      (scores.length - (K + 1))).length = K + 1 := by
    rw [List.length_drop, List.length_insertionSort, List.enum_length]
    omega
  constructor
  · have hge := length_filter_ne_ge
      ((List.insertionSort scoreLe scores.enum).drop (scores.length - (K + 1))) i
      (nodup_fst_drop_sorted scores _)
    unfold selRaw
    omega
  · have hle := List.length_filter_le (fun p => p.1 ≠ i)
      ((List.insertionSort scoreLe scores.enum).drop (scores.length - (K + 1)))
    unfold selRaw
    omega

lemma mem_selRaw (scores : List ℚ) (i K : ℕ) {p : ℕ × ℚ} (hp : p ∈ selRaw scores i K) :
    p.1 ≠ i ∧ scores.get? p.1 = some p.2 := by
  unfold selRaw at hp
  rcases List.mem_filter.mp hp with ⟨hmem, hne⟩
  refine ⟨by simpa using hne, ?_⟩
  have hp' : p ∈ scores.enum := (List.perm_insertionSort scoreLe scores.enum).subset
    ((List.drop_sublist _ _).subset hmem)
  exact List.mem_enum_iff_get?.mp hp'

lemma topKSelect_some_bound {scores : List ℚ} {i K : ℕ} {l : List (ℕ × ℚ)}
    (h : topKSelect scores i K = some l) : K + 1 ≤ scores.length := by
  by_contra hc
  unfold topKSelect at h
  rw [if_pos (by omega)] at h
  exact Option.noConfusion h

lemma roundHalfEven_ge_floor (q : ℚ) : ⌊q⌋ ≤ roundHalfEven q := by
  unfold roundHalfEven
  split_ifs <;> omega

lemma roundHalfEven_le_floor_add_one (q : ℚ) : roundHalfEven q ≤ ⌊q⌋ + 1 := by
  unfold roundHalfEven
  split_ifs <;> omega

lemma roundHalfEven_mono {a b : ℚ} (h : a ≤ b) : roundHalfEven a ≤ roundHalfEven b := by
  rcases lt_or_eq_of_le (Int.floor_le_floor h) with hf | hf
  · calc roundHalfEven a ≤ ⌊a⌋ + 1 := roundHalfEven_le_floor_add_one a
      _ ≤ ⌊b⌋ := by omega
      _ ≤ roundHalfEven b := roundHalfEven_ge_floor b
  · unfold roundHalfEven
    rw [← hf]
    split_ifs <;> first | omega | linarith

lemma round4_mono {a b : ℚ} (h : a ≤ b) : round4 a ≤ round4 b := by
  unfold round4
  have hm : roundHalfEven (a * 10000) ≤ roundHalfEven (b * 10000) :=
    roundHalfEven_mono (by linarith)
  have hc : ((roundHalfEven (a * 10000) : ℚ)) ≤ (roundHalfEven (b * 10000) : ℚ) := by
    exact_mod_cast hm
  exact div_le_div_of_nonneg_right hc (by norm_num) |>.trans_eq rfl

lemma round4_zero : round4 0 = 0 := by
  unfold round4 roundHalfEven
  norm_num

lemma round4_one : round4 1 = 1 := by
  unfold round4 roundHalfEven
  norm_num

/-- C1 (amended): whenever `K + 1 ≤ N`, the Neighbor List produced for any
entry has length exactly `min K (N − 1) = K`.  When `N − 1 < K` the claim
fails: `np.argpartition(scores, -(K+1))` raises `kth out of bounds`
(modelled by `none`) instead of returning the `N − 1` non-self entries. -/
theorem neighborList_length (scores : List ℚ) (i K : ℕ) (h : K + 1 ≤ scores.length) :
    ∃ l, topKSelect scores i K = some l ∧ l.length = min K (scores.length - 1) := by
  refine ⟨_, topKSelect_eq_selRaw scores i K h, ?_⟩
  rcases length_selRaw scores i K h with ⟨h1, h2⟩
  simp only [List.length_map, List.length_take, List.length_reverse]
  omega

theorem neighborList_length_witness :
    2 + 1 ≤ ([1, 0, 0, 0] : List ℚ).length ∧
    ∃ l, topKSelect [1, 0, 0, 0] 0 2 = some l ∧
      l.length = min 2 (([1, 0, 0, 0] : List ℚ).length - 1) :=
  ⟨by decide, neighborList_length [1, 0, 0, 0] 0 2 (by decide)⟩

/-- C1 counterexample: a corpus of N = 5 entries with K = 10 (the spec's
own scenario) does not yield length-4 Neighbor Lists: the selection step
fails on every row, so the run produces nothing at all. -/
theorem neighborList_small_corpus_cex :
    topKSelect [1, 0, 0, 0, 0] 0 10 = none ∧
    batchedSimilarity (fun _ => [1, 0, 0, 0, 0]) 5 10 500 = none := by
  refine ⟨rfl, ?_⟩
  rw [batchedSimilarity, batchLoop]
  norm_num
  rw [show List.range 5 = [0, 1, 2, 3, 4] from rfl]
  simp [List.mapM_cons, topKSelect, List.mapM, List.mapM.loop]

lemma mapM_map_option {α β γ : Type} (l : List α) (g : α → β) (f : β → Option γ) :
    (l.map g).mapM f = l.mapM (fun x => f (g x)) := by
  induction l with
  | nil => rfl
  | cons a t ih => rw [List.map_cons, List.mapM_cons, List.mapM_cons, ih]

/-- Normal form of the batch loop: for any positive batch size the loop
computes exactly the per-row selector outputs of rows
`start, start+1, …, N-1`, in original index order. -/
lemma batchLoop_eq_mapM (sim : ℕ → List ℚ) (N K B : ℕ) (hB : B ≠ 0) (start : ℕ) :
    batchLoop sim N K B start =
      (List.range (N - start)).mapM
        (fun li => topKSelect (sim (start + li)) (start + li) K) := by
  rw [batchLoop]
  by_cases hN : N ≤ start
  · rw [dif_pos hN, show N - start = 0 by omega]
    rfl
  · rw [dif_neg hN, dif_neg hB]
    dsimp only
    have hrec := batchLoop_eq_mapM sim N K B hB (min (start + B) N)
    rw [hrec]
    have hsplit : N - start = (min (start + B) N - start) + (N - min (start + B) N) := by
      omega
    rw [hsplit, List.range_add, List.mapM_append, mapM_map_option]
    have harith : ∀ x : ℕ, start + (min (start + B) N - start + x)
        = min (start + B) N + x := by
      intro x
      omega
    have hfun : (fun x => topKSelect (sim (start + (min (start + B) N - start + x)))
          (start + (min (start + B) N - start + x)) K)
        = (fun li => topKSelect (sim (min (start + B) N + li)) (min (start + B) N + li) K) := by
      funext x
      rw [harith x]
    rw [hfun]
termination_by N - start
decreasing_by
  have hB' : 0 < B := Nat.pos_of_ne_zero hB
  omega

/-- C6: the batch size does not affect the output: for any two positive
batch sizes (in particular `batchSize = 1` and `batchSize = N`) the
batched similarity pipeline produces identical Neighbor Lists for every
entry, reassembled in original index order. -/
theorem batch_size_invariance (sim : ℕ → List ℚ) (N K B₁ B₂ : ℕ)
    (h₁ : B₁ ≠ 0) (h₂ : B₂ ≠ 0) :
    batchedSimilarity sim N K B₁ = batchedSimilarity sim N K B₂ := by
  rw [batchedSimilarity, batchedSimilarity,
    batchLoop_eq_mapM sim N K B₁ h₁ 0, batchLoop_eq_mapM sim N K B₂ h₂ 0]

theorem batch_size_invariance_witness :
    batchedSimilarity (fun _ => [1, 0]) 2 0 1 = batchedSimilarity (fun _ => [1, 0]) 2 0 2 :=
  batch_size_invariance (fun _ => [1, 0]) 2 0 1 2 (by decide) (by decide)

/-- Batch start offsets of `for batch_start in range(0, N, B)`:
`0, B, 2B, …`, `⌈N/B⌉` of them. -/
def batchStarts (N B : ℕ) : List ℕ :=
  (List.range ((N + B - 1) / B)).map (· * B)

/-- Write one batch's Neighbor Lists into the preallocated table
(`similarity_data[global_i] = top_similar`), keyed by global index. -/
def writeBatch (sim : ℕ → List ℚ) (N K B : ℕ)
    (tbl : List (Option (List (ℕ × ℚ)))) (s : ℕ) : List (Option (List (ℕ × ℚ))) :=
  (List.range (min (s + B) N - s)).foldl
    (fun t li => t.set (s + li) (topKSelect (sim (s + li)) (s + li) K)) tbl

/-- Run the batches in an arbitrary completion order, starting from the
preallocated `[None] * num_movies` table. -/
def scatterRun (sim : ℕ → List ℚ) (N K B : ℕ) (order : List ℕ) :
    List (Option (List (ℕ × ℚ))) :=
  order.foldl (writeBatch sim N K B) (List.replicate N none)

lemma getElem?_foldl_set {α β : Type} (idxs : List β) (pos : β → ℕ) (w : ℕ → α) (i : ℕ) :
    ∀ tbl : List α,
      (idxs.foldl (fun t j => t.set (pos j) (w (pos j))) tbl)[i]? =
        if ∃ j ∈ idxs, pos j = i then (if i < tbl.length then some (w i) else none)
        else tbl[i]? := by
  induction idxs with
  | nil =>
    intro tbl
    rw [if_neg]
    · rfl
    · simp
  | cons a t ih =>
    intro tbl
    rw [List.foldl_cons, ih (tbl.set (pos a) (w (pos a)))]
    have hlen : (tbl.set (pos a) (w (pos a))).length = tbl.length := List.length_set tbl _ _
    rw [hlen]
    by_cases hc : ∃ j ∈ t, pos j = i
    · have hca : ∃ j ∈ a :: t, pos j = i := by
        rcases hc with ⟨j, hj, hji⟩
        exact ⟨j, List.mem_cons_of_mem a hj, hji⟩
      rw [if_pos hc, if_pos hca]
    · rw [if_neg hc]
      by_cases hai : pos a = i
      · have hca : ∃ j ∈ a :: t, pos j = i := ⟨a, List.mem_cons_self a t, hai⟩
        rw [if_pos hca]
        subst hai
        by_cases hlt : pos a < tbl.length
        · rw [List.getElem?_set_eq hlt, if_pos hlt]
        · rw [if_neg hlt, List.getElem?_eq_none]
          rw [hlen]
          omega
      · have hca : ¬ ∃ j ∈ a :: t, pos j = i := by
          rintro ⟨j, hj, hji⟩
          rcases List.mem_cons.mp hj with rfl | hjt
          · exact hai hji
          · exact hc ⟨j, hjt, hji⟩
        rw [if_neg hca, List.getElem?_set_ne hai]

lemma length_writeBatch (sim : ℕ → List ℚ) (N K B : ℕ)
    (tbl : List (Option (List (ℕ × ℚ)))) (s : ℕ) :
    (writeBatch sim N K B tbl s).length = tbl.length := by
  unfold writeBatch
  generalize List.range (min (s + B) N - s) = idxs
  induction idxs generalizing tbl with
  | nil => rfl
  | cons a t ih => rw [List.foldl_cons, ih, List.length_set]

lemma getElem?_writeBatch (sim : ℕ → List ℚ) (N K B : ℕ)
    (tbl : List (Option (List (ℕ × ℚ)))) (s i : ℕ) :
    (writeBatch sim N K B tbl s)[i]? =
      if s ≤ i ∧ i < min (s + B) N then
        (if i < tbl.length then some (topKSelect (sim i) i K) else none)
      else tbl[i]? := by
  unfold writeBatch
  rw [getElem?_foldl_set (List.range (min (s + B) N - s)) (fun li => s + li)
    (fun g => topKSelect (sim g) g K) i tbl]
  congr 1
  simp only [List.mem_range, eq_iff_iff]
  constructor
  · rintro ⟨j, hj, rfl⟩
    omega
  · rintro ⟨h1, h2⟩
    exact ⟨i - s, by omega, by omega⟩

lemma getElem?_scatter_fold (sim : ℕ → List ℚ) (N K B : ℕ) (i : ℕ) :
    ∀ (order : List ℕ) (tbl : List (Option (List (ℕ × ℚ)))), tbl.length = N →
      (order.foldl (writeBatch sim N K B) tbl)[i]? =
        if ∃ s ∈ order, s ≤ i ∧ i < min (s + B) N then some (topKSelect (sim i) i K)
        else tbl[i]? := by
  intro order
  induction order with
  | nil =>
    intro tbl _
    rw [if_neg (by simp)]
    rfl
  | cons a t ih =>
    intro tbl htbl
    rw [List.foldl_cons, ih _ (by rw [length_writeBatch, htbl]), getElem?_writeBatch]
    by_cases hc : ∃ s ∈ t, s ≤ i ∧ i < min (s + B) N
    · have hca : ∃ s ∈ a :: t, s ≤ i ∧ i < min (s + B) N := by
        rcases hc with ⟨s, hs, hsi⟩
        exact ⟨s, List.mem_cons_of_mem a hs, hsi⟩
      rw [if_pos hc, if_pos hca]
    · rw [if_neg hc]
      by_cases hai : a ≤ i ∧ i < min (a + B) N
      · have hca : ∃ s ∈ a :: t, s ≤ i ∧ i < min (s + B) N :=
          ⟨a, List.mem_cons_self a t, hai⟩
        rw [if_pos hai, if_pos hca, if_pos (by omega)]
      · have hca : ¬ ∃ s ∈ a :: t, s ≤ i ∧ i < min (s + B) N := by
          rintro ⟨s, hs, hsi⟩
          rcases List.mem_cons.mp hs with rfl | hst
          · exact hai hsi
          · exact hc ⟨s, hst, hsi⟩
        rw [if_neg hai, if_neg hca]

lemma batchStarts_cover {N B i : ℕ} (hB : B ≠ 0) (hi : i < N) :
    ∃ s ∈ batchStarts N B, s ≤ i ∧ i < min (s + B) N := by
  have hBpos : 0 < B := Nat.pos_of_ne_zero hB
  have hmod : i / B * B + i % B = i := by
    have h := Nat.div_add_mod i B
    rw [Nat.mul_comm B (i / B)] at h
    exact h
  have hltB : i % B < B := Nat.mod_lt i hBpos
  refine ⟨i / B * B, ?_, by omega, by omega⟩
  unfold batchStarts
  refine List.mem_map.mpr ⟨i / B, List.mem_range.mpr ?_, rfl⟩
  have hstep : i / B + 1 ≤ (N + B - 1) / B := by
    rw [Nat.le_div_iff_mul_le hBpos, Nat.succ_mul]
    omega
  omega

/-- C7: the engine is deterministic and independent of batch completion
order: executing the batch writes in any permutation of the batch
schedule yields the same table, namely each entry's selector output
keyed by its original index.  Two runs on identical input and
configuration therefore produce identical Neighbor Lists. -/
theorem batch_order_determinism (sim : ℕ → List ℚ) (N K B : ℕ) (hB : B ≠ 0)
    (order : List ℕ) (hperm : List.Perm order (batchStarts N B)) :
    scatterRun sim N K B order =
      (List.range N).map (fun i => topKSelect (sim i) i K) := by
  apply List.ext_getElem?_iff.mpr
  intro i
  unfold scatterRun
  rw [getElem?_scatter_fold sim N K B i order (List.replicate N none)
    (List.length_replicate N none)]
  by_cases hi : i < N
  · rw [if_pos ?_, List.getElem?_map, List.getElem?_range hi]
    · rfl
    · rcases batchStarts_cover hB hi with ⟨s, hs, hsi⟩
      exact ⟨s, hperm.mem_iff.mpr hs, hsi⟩
  · rw [if_neg ?_, List.getElem?_map]
    · rw [List.getElem?_eq_none (by simpa using Nat.le_of_not_lt hi),
        List.getElem?_eq_none (by simpa using Nat.le_of_not_lt hi)]
      rfl
    · rintro ⟨s, _, _, hlt⟩
      omega

theorem batch_order_determinism_witness :
    scatterRun (fun _ => [1, 0]) 2 0 1 [1, 0] =
      (List.range 2).map (fun i => topKSelect ((fun _ => ([1, 0] : List ℚ)) i) i 0) :=
  batch_order_determinism (fun _ => [1, 0]) 2 0 1 (by decide) [1, 0] (by decide)

/-- C4: the Neighbor List produced for entry `i` never contains index `i`
itself, for every score row and every `K` — the self index is removed by
value (`top_indices[top_indices != global_i]`), so this holds also when
the entry's document is a zero vector and its self-similarity is 0. -/
theorem neighborList_no_self (scores : List ℚ) (i K : ℕ) (l : List (ℕ × ℚ))
    (h : topKSelect scores i K = some l) : ∀ p ∈ l, p.1 ≠ i := by
  have hK := topKSelect_some_bound h
  rw [topKSelect_eq_selRaw scores i K hK] at h
  injection h with h
  subst h
  intro p hp
  rcases List.mem_map.mp hp with ⟨q, hq, rfl⟩
  have hq' : q ∈ selRaw scores i K :=
    List.mem_reverse.mp ((List.take_sublist K (selRaw scores i K).reverse).subset hq)
  exact (mem_selRaw scores i K hq').1

theorem neighborList_no_self_witness :
    topKSelect [1, 0, 0] 0 1 = some [(2, round4 0)] ∧ (2 : ℕ) ≠ 0 :=
  ⟨rfl, neighborList_no_self [1, 0, 0] 0 1 [(2, round4 0)] rfl (2, round4 0) (by simp)⟩

/-- C5: within every produced Neighbor List the similarity scores are
non-increasing from first to last element (descending sort of the raw
scores, then rounding, which is monotone). -/
theorem neighborList_nonincreasing (scores : List ℚ) (i K : ℕ) (l : List (ℕ × ℚ))
    (h : topKSelect scores i K = some l) :
    l.Pairwise (fun p q => q.2 ≤ p.2) := by
  have hK := topKSelect_some_bound h
  rw [topKSelect_eq_selRaw scores i K hK] at h
  injection h with h
  subst h
  rw [List.pairwise_map]
  have hrev : (selRaw scores i K).reverse.Pairwise (fun a b => scoreLe b a) :=
    List.pairwise_reverse.mpr (sorted_selRaw scores i K)
  exact (hrev.sublist (List.take_sublist K _)).imp
    (fun h => round4_mono (scoreLe_snd_le h))

theorem neighborList_nonincreasing_witness :
    ([((2 : ℕ), round4 0), (1, round4 0)] : List (ℕ × ℚ)).Pairwise
      (fun p q => q.2 ≤ p.2) :=
  neighborList_nonincreasing [1, 0, 0] 0 2 [(2, round4 0), (1, round4 0)] rfl

/-- C2 (amended): the Neighbor List produced for a score row is a
deterministic, reproducible function of the row and `K` (two successful
runs on the same row agree), but the code implements no tie-break
policy: the claimed ascending entry-index order among equal-score
candidates fails in general, because the partial selection and the
reversed argsort leave the relative order of equal scores unspecified
(the counterexample row `[1, 0, 0]` already violates it). -/
theorem neighborList_tiebreak (scores : List ℚ) (i K : ℕ) (l l' : List (ℕ × ℚ))
    (h : topKSelect scores i K = some l) (h' : topKSelect scores i K = some l') :
    l = l' ∧
    ¬ (∀ (scores₀ : List ℚ) (i₀ K₀ : ℕ) (l₀ : List (ℕ × ℚ)),
        topKSelect scores₀ i₀ K₀ = some l₀ →
        l₀.Pairwise (fun p q => scores₀.get? p.1 = scores₀.get? q.1 → p.1 < q.1)) := by
  refine ⟨Option.some.inj (h.symm.trans h'), ?_⟩
  intro hall
  have hinst := hall [1, 0, 0] 0 2 [(2, round4 0), (1, round4 0)] rfl
  have h21 := (List.pairwise_cons.mp hinst).1 (1, round4 0) (List.mem_singleton.mpr rfl) rfl
  simp only at h21
  omega

theorem neighborList_tiebreak_witness :
    ([((2 : ℕ), round4 0), (1, round4 0)] : List (ℕ × ℚ))
        = [((2 : ℕ), round4 0), (1, round4 0)] ∧
    ¬ (∀ (scores₀ : List ℚ) (i₀ K₀ : ℕ) (l₀ : List (ℕ × ℚ)),
        topKSelect scores₀ i₀ K₀ = some l₀ →
        l₀.Pairwise (fun p q => scores₀.get? p.1 = scores₀.get? q.1 → p.1 < q.1)) :=
  neighborList_tiebreak [1, 0, 0] 0 2 [(2, round4 0), (1, round4 0)]
    [(2, round4 0), (1, round4 0)] rfl rfl

/-- Dot product of two column-indexed rows over the first `V` columns. -/
noncomputable def dotProd (x y : ℕ → ℝ) (V : ℕ) : ℝ := ∑ j ∈ Finset.range V, x j * y j

/-- L2 norm of a row. -/
noncomputable def l2norm (x : ℕ → ℝ) (V : ℕ) : ℝ := Real.sqrt (dotProd x x V)

/-- Row normalization as performed by sklearn inside `cosine_similarity`:
rows are divided by their L2 norm, except that zero rows are left
untouched (sklearn replaces zero norms by 1 before dividing), so a zero
feature document never causes a division error. -/
noncomputable def normalizeRow (x : ℕ → ℝ) (V : ℕ) : ℕ → ℝ :=
  fun j => if l2norm x V = 0 then x j else x j / l2norm x V

/-- sklearn `cosine_similarity(X, Y)`: `normalize(X) @ normalize(Y).T`,
the call at line 142 of `precompute_data.py`. -/
noncomputable def cosineSim (x y : ℕ → ℝ) (V : ℕ) : ℝ :=
  dotProd (normalizeRow x V) (normalizeRow y V) V

/-- Term frequency: raw count of token `t` in document `i`.  Documents
are given post-tokenization as token lists (tokenization and stop-word
removal happen upstream of the weighting). -/
def tf (docs : List (List String)) (i : ℕ) (t : String) : ℕ := (docs.getD i []).count t

/-- Document frequency of token `t`: the number of documents containing
`t` at least once. -/
def df (docs : List (List String)) (t : String) : ℕ :=
  (docs.filter (fun d => t ∈ d)).length

/-- Smoothed inverse document frequency, the semantics of
`TfidfVectorizer` with its default `smooth_idf=True` (the call
`TfidfVectorizer(stop_words="english")` at line 108):
`idf(t) = ln((1+N)/(1+df(t))) + 1`. -/
noncomputable def idf (docs : List (List String)) (t : String) : ℝ :=
  Real.log ((1 + docs.length) / (1 + df docs t)) + 1

/-- The vocabulary: distinct tokens of the corpus, column-indexed. -/
def vocab (docs : List (List String)) : List String := docs.flatten.dedup

/-- Unnormalized TF-IDF row of document `i`: `weight(i,j) = tf(i,j) × idf(j)`. -/
noncomputable def tfidfRow (docs : List (List String)) (i : ℕ) : ℕ → ℝ :=
  fun j => (tf docs i ((vocab docs).getD j "") : ℝ) * idf docs ((vocab docs).getD j "")

lemma dotProd_self_nonneg (x : ℕ → ℝ) (V : ℕ) : 0 ≤ dotProd x x V :=
  Finset.sum_nonneg fun j _ => mul_self_nonneg (x j)

lemma l2norm_nonneg (x : ℕ → ℝ) (V : ℕ) : 0 ≤ l2norm x V := Real.sqrt_nonneg _

lemma l2norm_sq (x : ℕ → ℝ) (V : ℕ) : l2norm x V * l2norm x V = dotProd x x V :=
  Real.mul_self_sqrt (dotProd_self_nonneg x V)

lemma l2norm_eq_zero_iff (x : ℕ → ℝ) (V : ℕ) : l2norm x V = 0 ↔ dotProd x x V = 0 :=
  Real.sqrt_eq_zero (dotProd_self_nonneg x V)

lemma dotProd_normalize (x y : ℕ → ℝ) (V : ℕ) (hx : l2norm x V ≠ 0) (hy : l2norm y V ≠ 0) :
    dotProd (normalizeRow x V) (normalizeRow y V) V
      = dotProd x y V / (l2norm x V * l2norm y V) := by
  unfold dotProd normalizeRow
  simp only [if_neg hx, if_neg hy]
  rw [show (∑ j ∈ Finset.range V, x j / l2norm x V * (y j / l2norm y V))
      = ∑ j ∈ Finset.range V, x j * y j / (l2norm x V * l2norm y V) from
    Finset.sum_congr rfl (fun j _ => div_mul_div_comm _ _ _ _), ← Finset.sum_div]

lemma l2norm_normalize (x : ℕ → ℝ) (V : ℕ) (hx : dotProd x x V ≠ 0) :
    l2norm (normalizeRow x V) V = 1 := by
  have hnx : l2norm x V ≠ 0 := fun h => hx ((l2norm_eq_zero_iff x V).mp h)
  unfold l2norm
  rw [dotProd_normalize x x V hnx hnx, ← l2norm_sq x V,
    div_self (mul_ne_zero hnx hnx), Real.sqrt_one]

lemma normalizeRow_nonneg (x : ℕ → ℝ) (V : ℕ) (hx : ∀ j, 0 ≤ x j) :
    ∀ j, 0 ≤ normalizeRow x V j := by
  intro j
  unfold normalizeRow
  split_ifs
  · exact hx j
  · exact div_nonneg (hx j) (l2norm_nonneg x V)

lemma dotProd_nonneg (x y : ℕ → ℝ) (V : ℕ) (hx : ∀ j, 0 ≤ x j) (hy : ∀ j, 0 ≤ y j) :
    0 ≤ dotProd x y V :=
  Finset.sum_nonneg fun j _ => mul_nonneg (hx j) (hy j)

lemma dotProd_normalize_self_le_one (x : ℕ → ℝ) (V : ℕ) :
    dotProd (normalizeRow x V) (normalizeRow x V) V ≤ 1 := by
  by_cases hx : dotProd x x V = 0
  · have hnx : l2norm x V = 0 := (l2norm_eq_zero_iff x V).mpr hx
    unfold normalizeRow
    simp only [if_pos hnx]
    calc dotProd (fun j => x j) (fun j => x j) V = dotProd x x V := rfl
      _ = 0 := hx
      _ ≤ 1 := by norm_num
  · have hnx : l2norm x V ≠ 0 := fun h => hx ((l2norm_eq_zero_iff x V).mp h)
    rw [dotProd_normalize x x V hnx hnx, ← l2norm_sq x V,
      div_self (mul_ne_zero hnx hnx)]

lemma cosineSim_mem_unit (x y : ℕ → ℝ) (V : ℕ) (hx : ∀ j, 0 ≤ x j) (hy : ∀ j, 0 ≤ y j) :
    0 ≤ cosineSim x y V ∧ cosineSim x y V ≤ 1 := by
  have hd : 0 ≤ cosineSim x y V :=
    dotProd_nonneg _ _ V (normalizeRow_nonneg x V hx) (normalizeRow_nonneg y V hy)
  refine ⟨hd, ?_⟩
  have hcs := Finset.sum_mul_sq_le_sq_mul_sq (Finset.range V)
    (normalizeRow x V) (normalizeRow y V)
  have hxx : (∑ j ∈ Finset.range V, normalizeRow x V j ^ 2)
      = dotProd (normalizeRow x V) (normalizeRow x V) V := by
    unfold dotProd
    apply Finset.sum_congr rfl
    intro j _
    ring
  have hyy : (∑ j ∈ Finset.range V, normalizeRow y V j ^ 2)
      = dotProd (normalizeRow y V) (normalizeRow y V) V := by
    unfold dotProd
    apply Finset.sum_congr rfl
    intro j _
    ring
  rw [hxx, hyy] at hcs
  have h1 := dotProd_normalize_self_le_one x V
  have h2 := dotProd_normalize_self_le_one y V
  have h0x := dotProd_self_nonneg (normalizeRow x V) V
  have h0y := dotProd_self_nonneg (normalizeRow y V) V
  have hsq : cosineSim x y V ^ 2 ≤ 1 := by
    calc cosineSim x y V ^ 2
        ≤ dotProd (normalizeRow x V) (normalizeRow x V) V
          * dotProd (normalizeRow y V) (normalizeRow y V) V := hcs
      _ ≤ 1 := by nlinarith
  nlinarith

lemma cosineSim_zero_left (x y : ℕ → ℝ) (V : ℕ) (hx : ∀ j, x j = 0) :
    cosineSim x y V = 0 := by
  unfold cosineSim dotProd normalizeRow
  apply Finset.sum_eq_zero
  intro j _
  split_ifs <;> simp [hx j]

lemma cosineSim_zero_right (x y : ℕ → ℝ) (V : ℕ) (hy : ∀ j, y j = 0) :
    cosineSim x y V = 0 := by
  unfold cosineSim dotProd normalizeRow
  apply Finset.sum_eq_zero
  intro j _
  split_ifs <;> simp [hy j]

/-- C3: every score emitted in any Neighbor List lies in [0, 1]: the raw
cosine similarity of non-negative (TF-IDF) vectors lies in [0, 1], and
the selector preserves the interval through sorting and rounding — the
rounding is monotone and fixes 0 and 1, so no emitted score can escape
the interval.  (The code contains no explicit clamp; in exact arithmetic
none is needed for the bound to hold.) -/
theorem emitted_scores_unit_interval :
    (∀ (x y : ℕ → ℝ) (V : ℕ), (∀ j, 0 ≤ x j) → (∀ j, 0 ≤ y j) →
      0 ≤ cosineSim x y V ∧ cosineSim x y V ≤ 1) ∧
    (∀ (scores : List ℚ) (i K : ℕ) (l : List (ℕ × ℚ)),
      (∀ s ∈ scores, 0 ≤ s ∧ s ≤ 1) → topKSelect scores i K = some l →
      ∀ p ∈ l, 0 ≤ p.2 ∧ p.2 ≤ 1) := by
  constructor
  · exact cosineSim_mem_unit
  · intro scores i K l hb h p hp
    have hK := topKSelect_some_bound h
    rw [topKSelect_eq_selRaw scores i K hK] at h
    injection h with h
    subst h
    rcases List.mem_map.mp hp with ⟨q, hq, rfl⟩
    have hq' : q ∈ selRaw scores i K :=
      List.mem_reverse.mp ((List.take_sublist K (selRaw scores i K).reverse).subset hq)
    have hqmem : q.2 ∈ scores := List.get?_mem (mem_selRaw scores i K hq').2
    rcases hb q.2 hqmem with ⟨h0, h1⟩
    constructor
    · have hmono := round4_mono h0
      rw [round4_zero] at hmono
      exact hmono
    · have hmono := round4_mono h1
      rw [round4_one] at hmono
      exact hmono

theorem emitted_scores_unit_interval_witness :
    (0 ≤ cosineSim (fun _ => 0) (fun _ => 0) 1 ∧
      cosineSim (fun _ => 0) (fun _ => 0) 1 ≤ 1) ∧
    (0 ≤ ((2 : ℕ), round4 0).2 ∧ ((2 : ℕ), round4 0).2 ≤ 1) :=
  ⟨emitted_scores_unit_interval.1 (fun _ => 0) (fun _ => 0) 1
      (fun _ => le_refl 0) (fun _ => le_refl 0),
   emitted_scores_unit_interval.2 [1, 0, 0] 0 1 [(2, round4 0)]
      (by
        intro s hs
        fin_cases hs <;> norm_num) rfl (2, round4 0) (by simp)⟩

/-- C8: the Vectorizer computes the smoothed inverse document frequency
`idf(t) = ln((1+N)/(1+df(t))) + 1` with `df(t)` the number of documents
containing `t`; the matrix weight is `tf(i,j) × idf(j)`; and each nonzero
row L2-normalizes to norm 1, so the dot product of two normalized rows is
exactly the cosine similarity of the raw rows. -/
theorem tfidf_vectorizer_semantics (docs : List (List String)) (i k : ℕ)
    (hi : dotProd (tfidfRow docs i) (tfidfRow docs i) (vocab docs).length ≠ 0)
    (hk : dotProd (tfidfRow docs k) (tfidfRow docs k) (vocab docs).length ≠ 0) :
    (∀ t, idf docs t = Real.log ((1 + docs.length) / (1 + df docs t)) + 1) ∧
    (∀ j, tfidfRow docs i j
        = (tf docs i ((vocab docs).getD j "") : ℝ) * idf docs ((vocab docs).getD j "")) ∧
    l2norm (normalizeRow (tfidfRow docs i) (vocab docs).length) (vocab docs).length = 1 ∧
    cosineSim (tfidfRow docs i) (tfidfRow docs k) (vocab docs).length
      = dotProd (tfidfRow docs i) (tfidfRow docs k) (vocab docs).length
        / (l2norm (tfidfRow docs i) (vocab docs).length
            * l2norm (tfidfRow docs k) (vocab docs).length) := by
  refine ⟨fun t => rfl, fun j => rfl, l2norm_normalize _ _ hi, ?_⟩
  have hni : l2norm (tfidfRow docs i) (vocab docs).length ≠ 0 :=
    fun h => hi ((l2norm_eq_zero_iff _ _).mp h)
  have hnk : l2norm (tfidfRow docs k) (vocab docs).length ≠ 0 :=
    fun h => hk ((l2norm_eq_zero_iff _ _).mp h)
  exact dotProd_normalize _ _ _ hni hnk

lemma dotProd_tfidf_aa : dotProd (tfidfRow [["aa"], ["aa"]] 0) (tfidfRow [["aa"], ["aa"]] 0)
    (vocab [["aa"], ["aa"]]).length = 1 := by
  have hv : vocab [["aa"], ["aa"]] = ["aa"] := by decide
  have hrow : tfidfRow [["aa"], ["aa"]] 0 0 = 1 := by
    unfold tfidfRow
    rw [hv]
    rw [show tf [["aa"], ["aa"]] 0 (["aa"].getD 0 "") = 1 from rfl]
    unfold idf
    rw [show df [["aa"], ["aa"]] (["aa"].getD 0 "") = 2 from rfl]
    norm_num [Real.log_one]
  rw [hv]
  unfold dotProd
  rw [show (["aa"] : List String).length = 1 from rfl, Finset.sum_range_one, hrow]
  norm_num

theorem tfidf_vectorizer_semantics_witness :
    l2norm (normalizeRow (tfidfRow [["aa"], ["aa"]] 0) (vocab [["aa"], ["aa"]]).length)
      (vocab [["aa"], ["aa"]]).length = 1 :=
  (tfidf_vectorizer_semantics [["aa"], ["aa"]] 0 1
    (by rw [dotProd_tfidf_aa]; norm_num)
    (by rw [show tfidfRow [["aa"], ["aa"]] 1 = tfidfRow [["aa"], ["aa"]] 0 from rfl,
          dotProd_tfidf_aa]
        norm_num)).2.2.1

/-- C9: an empty (or stop-words-only) feature document yields an all-zero
TF-IDF row; a zero row's cosine similarity to every entry is 0 and no
division error can occur (the normalization leaves zero rows untouched);
and a Neighbor List produced from an all-zero score row contains only
zero scores. -/
theorem zero_vector_document (docs : List (List String)) (e : ℕ)
    (he : docs.getD e [] = []) :
    (∀ j, tfidfRow docs e j = 0) ∧
    (∀ (y : ℕ → ℝ) (V : ℕ), cosineSim (tfidfRow docs e) y V = 0 ∧
      cosineSim y (tfidfRow docs e) V = 0) ∧
    (∀ (scores : List ℚ) (i K : ℕ) (l : List (ℕ × ℚ)),
      (∀ s ∈ scores, s = 0) → topKSelect scores i K = some l → ∀ p ∈ l, p.2 = 0) := by
  have hzero : ∀ j, tfidfRow docs e j = 0 := by
    intro j
    unfold tfidfRow tf
    rw [he]
    simp
  refine ⟨hzero, fun y V => ⟨cosineSim_zero_left _ y V hzero,
    cosineSim_zero_right y _ V hzero⟩, ?_⟩
  intro scores i K l hb h p hp
  have hK := topKSelect_some_bound h
  rw [topKSelect_eq_selRaw scores i K hK] at h
  injection h with h
  subst h
  rcases List.mem_map.mp hp with ⟨q, hq, rfl⟩
  have hq' : q ∈ selRaw scores i K :=
    List.mem_reverse.mp ((List.take_sublist K (selRaw scores i K).reverse).subset hq)
  have hqmem : q.2 ∈ scores := List.get?_mem (mem_selRaw scores i K hq').2
  show round4 q.2 = 0
  rw [hb q.2 hqmem, round4_zero]

theorem zero_vector_document_witness :
    tfidfRow [["aa"], []] 1 0 = 0 :=
  (zero_vector_document [["aa"], []] 1 rfl).1 0

/-- C2 counterexample: on the score row `[1, 0, 0]` of entry 0 (two
candidates tied at score 0) the produced Neighbor List is
`[(2, 0), (1, 0)]`: the equal-score entries appear in descending index
order, refuting the claimed ascending tie-break. -/
theorem neighborList_tiebreak_cex :
    topKSelect [1, 0, 0] 0 2 = some [(2, round4 0), (1, round4 0)] ∧
    ¬ ([((2 : ℕ), round4 0), (1, round4 0)] : List (ℕ × ℚ)).Pairwise
        (fun p q => p.2 = q.2 → p.1 < q.1) := by
  refine ⟨rfl, ?_⟩
  intro hp
  have h21 := (List.pairwise_cons.mp hp).1 (1, round4 0) (List.mem_singleton.mpr rfl) rfl
  simp only at h21
  omega

/-- Input row of `create_content_features` (line 74): the fields used to
build the feature document.  `none` models a missing (NaN) value. -/
structure MovieRow where
  directors : Option String
  writers : Option String
  genres : Option String
  startYear : Option String
  tags : Option String
  runtimeMinutes : Option ℚ
  averageRating : Option ℚ

/-- Runtime bucket of `create_content_features` (lines 81-89):
`"long"` above 120 minutes, `"medium"` above 90, `"short"` otherwise,
and the empty string when the runtime is missing. -/
def runtimeBucket (r : Option ℚ) : String :=
  match r with
  | none => ""
  | some v => if v > 120 then "long" else if v > 90 then "medium" else "short"

/-- Rating bucket of `create_content_features` (lines 91-99):
`"highly_rated"` from 7.5 up, `"moderately_rated"` from 6.5 up,
`"average_rated"` otherwise, and the empty string when missing. -/
def ratingBucket (a : Option ℚ) : String :=
  match a with
  | none => ""
  | some v =>
    if v ≥ 7.5 then "highly_rated"
    else if v ≥ 6.5 then "moderately_rated"
    else "average_rated"

/-- Feature document of one row, the f-string at line 101:
`f"{genres} {directors} {writers} {year} {runtime} {rating} {tags}"`. -/
def create_content_features (row : MovieRow) : String :=
  row.genres.getD "" ++ " " ++ row.directors.getD "" ++ " " ++ row.writers.getD "" ++ " "
    ++ row.startYear.getD "" ++ " " ++ runtimeBucket row.runtimeMinutes ++ " "
    ++ ratingBucket row.averageRating ++ " " ++ row.tags.getD ""

/-- C10: the bucket tokens are determined by the fixed thresholds:
runtime strictly above 120 is "long", in (90, 120] "medium", at most 90
"short"; rating at least 7.5 is "highly_rated", in [6.5, 7.5)
"moderately_rated", below 6.5 "average_rated"; and a missing runtime or
rating contributes the empty string, not a default bucket. -/
theorem content_feature_buckets (v a : ℚ) :
    (runtimeBucket none = "" ∧ ratingBucket none = "") ∧
    (120 < v → runtimeBucket (some v) = "long") ∧
    (90 < v → v ≤ 120 → runtimeBucket (some v) = "medium") ∧
    (v ≤ 90 → runtimeBucket (some v) = "short") ∧
    (7.5 ≤ a → ratingBucket (some a) = "highly_rated") ∧
    (6.5 ≤ a → a < 7.5 → ratingBucket (some a) = "moderately_rated") ∧
    (a < 6.5 → ratingBucket (some a) = "average_rated") := by
  refine ⟨⟨rfl, rfl⟩, ?_, ?_, ?_, ?_, ?_, ?_⟩
  · intro h1
    unfold runtimeBucket
    dsimp only
    rw [if_pos h1]
  · intro h1 h2
    unfold runtimeBucket
    dsimp only
    rw [if_neg (by linarith), if_pos h1]
  · intro h1
    unfold runtimeBucket
    dsimp only
    rw [if_neg (by linarith), if_neg (by linarith)]
  · intro h1
    unfold ratingBucket
    dsimp only
    rw [if_pos h1]
  · intro h1 h2
    unfold ratingBucket
    dsimp only
    rw [if_neg (by linarith), if_pos h1]
  · intro h1
    unfold ratingBucket
    dsimp only
    rw [if_neg (by linarith), if_neg (by linarith)]

theorem content_feature_buckets_witness :
    runtimeBucket (some 130) = "long" ∧ runtimeBucket (some 100) = "medium" ∧
    runtimeBucket (some 85) = "short" ∧ ratingBucket (some 8) = "highly_rated" ∧
    ratingBucket (some 7) = "moderately_rated" ∧ ratingBucket (some 6) = "average_rated" ∧
    runtimeBucket none = "" ∧ ratingBucket none = "" :=
  ⟨(content_feature_buckets 130 8).2.1 (by norm_num),
   (content_feature_buckets 100 8).2.2.1 (by norm_num) (by norm_num),
   (content_feature_buckets 85 8).2.2.2.1 (by norm_num),
   (content_feature_buckets 130 8).2.2.2.2.1 (by norm_num),
   (content_feature_buckets 130 7).2.2.2.2.2.1 (by norm_num) (by norm_num),
   (content_feature_buckets 130 6).2.2.2.2.2.2 (by norm_num),
   (content_feature_buckets 0 0).1.1,
   (content_feature_buckets 0 0).1.2⟩

end CineMatch
